import Mathlib

/-!
# Verification of the `binary` serialization package (Go)

Shallow embedding of `src/binary.go`: a reflective binary codec with

* a varint codec (Go `encoding/binary.PutUvarint` / `ReadUvarint`),
* `Encoder.Encode`: type-switch dispatch over Go values, writing to a sink,
* `Decoder.Decode`: the mirrored dispatch, reading from a `bufio.Reader`
  over a `bytes.Reader` (the configuration produced by `Unmarshal`).

Bytes are modelled as `Nat` (values `0..255`); machine integers are modelled
by their little-endian bit patterns (`Nat` below `2^(8*width)`), which is
exactly what `encoding/binary.Write`/`Read` put on / take off the wire.
-/

namespace BinaryGo

instance {ε α : Type _} [DecidableEq ε] [DecidableEq α] : DecidableEq (Except ε α) := fun
  | .error a, .error b =>
    if h : a = b then .isTrue (by rw [h]) else .isFalse (by intro hc; cases hc; exact h rfl)
  | .error _, .ok _ => .isFalse (by intro h; injection h)
  | .ok _, .error _ => .isFalse (by intro h; injection h)
  | .ok a, .ok b =>
    if h : a = b then .isTrue (by rw [h]) else .isFalse (by intro hc; cases hc; exact h rfl)

/-! ## The varint codec (LEB128, Go `encoding/binary` uvarint)

`PutUvarint` repeatedly emits the low 7 bits with the continuation bit set
until the remaining value is below 128, then emits that value as the final
byte.  The Go loop terminates because the argument shrinks; here the first
argument is fuel, instantiated with the value itself, which bounds the
number of divisions by 128. -/

def uvarintGo : Nat → Nat → List Nat
  | 0, x => [x]
  | f + 1, x => if x < 128 then [x] else (x % 128 + 128) :: uvarintGo f (x / 128)

/-- Bytes `binary.PutUvarint` writes for `n < 2^64` when its destination
buffer has room for them (the LEB128 encoding of `n`, one byte per 7-bit
group).  The repository's encoder calls `PutUvarint` through
`Encoder.writeVarint` with a fixed 8-byte scratch buffer — see
`writeVarint` below for that (partial) entry point. -/
def uvarint (n : Nat) : List Nat :=
  uvarintGo n n

/-- `Encoder.writeVarint` (src/binary.go lines 39–43): runs
`binary.PutUvarint(e.buf, uint64(v))` where `e.buf` is the 8-byte buffer
allocated by `NewEncoder` (line 36, `make([]byte, 8)`).  `PutUvarint`
indexes one buffer slot per emitted byte, so once a 9th byte is needed —
for every value `≥ 2^56` — it panics with a slice-bounds error instead of
returning; `none` models that panic.  Values below `2^56` fit in at most 8
bytes and are written as their LEB128 encoding. -/
def writeVarint (n : Nat) : Option (List Nat) :=
  if (uvarint n).length ≤ 8 then some (uvarint n) else none

/-- Go `binary.ReadUvarint`: fuel counts down from `MaxVarintLen64 = 10`;
`acc` and `s` are the accumulated value and current shift.  On every path
that Go returns successfully the 7-bit groups occupy disjoint bit positions
below 64, so Go's `x |= uint64(b&0x7f) << s` coincides with the plain `Nat`
sum used here.  A byte with the continuation bit clear terminates; at the
tenth byte Go additionally rejects values that would overflow 64 bits. -/
def readUvarintAux : Nat → Nat → Nat → List Nat → Except String (Nat × List Nat)
  | 0, _, _, _ => .error "binary: varint overflows a 64-bit integer"
  | _ + 1, _, _, [] => .error "EOF"
  | f + 1, acc, s, b :: rest =>
    if b < 128 then
      if f = 0 ∧ 1 < b then .error "binary: varint overflows a 64-bit integer"
      else .ok (acc + b * 2 ^ s, rest)
    else readUvarintAux f (acc + b % 128 * 2 ^ s) (s + 7) rest

/-- Go `binary.ReadUvarint` on a byte stream. -/
def readUvarint (s : List Nat) : Except String (Nat × List Nat) :=
  readUvarintAux 10 0 0 s

/-! ## Go types

The decoder is type-directed: the shape of the target decides what is read.
`GoType` covers the taxonomy the code dispatches over.  Scalars narrower
than the native word are collapsed to their byte width (`tscalar w` stands
for int8/uint8 (w=1), int16/uint16 (w=2), int32/uint32/float32 (w=4),
int64/uint64/float64/complex64 (w=8) and complex128 (w=16)): the wire
representation of `encoding/binary.Write`/`Read` depends only on the width,
with multi-part values (complex) flattened into one little-endian pattern.
`tint`/`tuint` are the native-width `int`/`uint`, which the code widens to
64 bits.  `tcustom` is a target implementing `encoding.BinaryUnmarshaler`/
`encoding.BinaryMarshaler` whose methods store and return its blob verbatim
(the shape of the repository's own test type `s2`).  Struct fields carry a
`skip` flag modelling `!field.CanSet() || name == "_"` (unexported fields,
padding fields, or a non-addressable struct). -/

mutual
inductive GoType : Type where
  | tstring
  | tbool
  | tint
  | tuint
  | tscalar (w : Nat)
  | tbytes
  | tcustom
  | tslice (t : GoType)
  | tarray (n : Nat) (t : GoType)
  | tstruct (fs : TFields)
  | tmap (kt vt : GoType)

inductive TFields : Type where
  | nil
  | cons (skip : Bool) (t : GoType) (rest : TFields)
end

deriving instance DecidableEq for GoType, TFields

/-! ## Go values

A value carries everything `reflect` can see of it.  `vnamed v` is a value
whose dynamic type is a user-declared named type over the shape of `v`
(e.g. `type Foo int64`): the encoder's type switch matches exact types, so
such a value reaches only the reflection branch.  Container constructors
carry the element type(s) so that empty containers still determine the
decode target type.  A Go map is modelled as its association list in the
iteration order the runtime happens to produce. -/

mutual
inductive GoValue : Type where
  | vmarshaler (r : Except String (List Nat))
  | vbytes (bs : List Nat)
  | vstring (bs : List Nat)
  | vbool (b : Bool)
  | vint (bits : Nat)
  | vuint (bits : Nat)
  | vscalar (w : Nat) (bits : Nat)
  | vnamed (v : GoValue)
  | vslice (t : GoType) (es : VList)
  | varray (t : GoType) (es : VList)
  | vstruct (fs : VFields)
  | vmap (kt vt : GoType) (ps : VPairs)

inductive VList : Type where
  | nil
  | cons (v : GoValue) (rest : VList)

inductive VFields : Type where
  | nil
  | cons (skip : Bool) (v : GoValue) (rest : VFields)

inductive VPairs : Type where
  | nil
  | cons (k v : GoValue) (rest : VPairs)
end

deriving instance DecidableEq for GoValue, VList, VFields, VPairs

def VList.length : VList → Nat
  | .nil => 0
  | .cons _ rest => rest.length + 1

def VPairs.length : VPairs → Nat
  | .nil => 0
  | .cons _ _ rest => rest.length + 1

def VPairs.append : VPairs → VPairs → VPairs
  | .nil, qs => qs
  | .cons k v rest, qs => .cons k v (rest.append qs)

/-! The dynamic type of a value, as the decoder would have to name it.
For `vnamed` we return the underlying type: decoding *into* a named target
is outside the modelled universe (`wfGo` excludes named values), `vnamed`
exists to analyse the encoder's dispatch. -/

mutual
def typeOf : GoValue → GoType
  | .vmarshaler _ => .tcustom
  | .vbytes _ => .tbytes
  | .vstring _ => .tstring
  | .vbool _ => .tbool
  | .vint _ => .tint
  | .vuint _ => .tuint
  | .vscalar w _ => .tscalar w
  | .vnamed v => typeOf v
  | .vslice t _ => .tslice t
  | .varray t es => .tarray es.length t
  | .vstruct fs => .tstruct (typeOfFields fs)
  | .vmap kt vt _ => .tmap kt vt

def typeOfFields : VFields → TFields
  | .nil => .nil
  | .cons sk v rest => .cons sk (typeOf v) (typeOfFields rest)
end

/-! ## Fixed-width little-endian scalars (`encoding/binary.Write`/`Read`) -/

/-- The `w` little-endian bytes of the bit pattern `n` (`n < 256^w`). -/
def toLE : Nat → Nat → List Nat
  | 0, _ => []
  | w + 1, n => n % 256 :: toLE w (n / 256)

/-- Recover a bit pattern from little-endian bytes. -/
def fromLE : List Nat → Nat
  | [] => 0
  | b :: bs => b + 256 * fromLE bs

def boolByte (b : Bool) : Nat :=
  if b then 1 else 0

/-! ## The encoder (`Encoder.Encode`, src/binary.go lines 45–131)

The sink is the list of bytes written so far; a result `(out, some e)`
means the call failed with error `e` after having written `out` (partial
writes are not rolled back, matching the Go encoder writing straight to
its `io.Writer`).  Dispatch order mirrors the source: the type switch
(`encoding.BinaryMarshaler`, `[]byte`, `string`, `bool`, `int`, `uint`,
the sized scalars) and then the reflection branch, which handles only the
`Array`, `Slice`, `Struct` and `Map` kinds and reports
"unsupported type" for every other kind.  A named type matches no exact
type-switch case (Go type switches compare dynamic types), but the
interface case still catches named marshalers, and the reflection branch
sees the underlying kind — so named composites encode structurally while
a named scalar (or named string) falls through to "unsupported type". -/

mutual
def encGo : GoValue → List Nat → List Nat × Option String
  -- case encoding.BinaryMarshaler: MarshalBinary first; only on success the
  -- varint length prefix, then the blob
  | .vmarshaler (.error e), out => (out, some e)
  | .vmarshaler (.ok buf), out => (out ++ uvarint buf.length ++ buf, none)
  | .vnamed (.vmarshaler (.error e)), out => (out, some e)
  | .vnamed (.vmarshaler (.ok buf)), out => (out ++ uvarint buf.length ++ buf, none)
  -- case []byte (fast path): varint length then the raw bytes
  | .vbytes bs, out => (out ++ uvarint bs.length ++ bs, none)
  -- case string: varint length then the raw bytes
  | .vstring bs, out => (out ++ uvarint bs.length ++ bs, none)
  -- case bool: one byte, 0 or 1
  | .vbool b, out => (out ++ [boolByte b], none)
  -- case int / case uint: widened to int64 and written fixed-width
  | .vint bits, out => (out ++ toLE 8 bits, none)
  | .vuint bits, out => (out ++ toLE 8 bits, none)
  -- case int8 ... complex128: fixed-width little-endian
  | .vscalar w bits, out => (out ++ toLE w bits, none)
  -- default: reflection on the kind
  | .vslice _ es, out => encVList es (out ++ uvarint es.length)
  | .varray _ es, out => encVList es (out ++ uvarint es.length)
  | .vstruct fs, out => encVFields fs out
  | .vmap _ _ ps, out => encVPairs ps (out ++ uvarint ps.length)
  -- a named type reaches the reflection branch; its kind is the underlying
  -- kind.  A named byte slice takes the generic Slice path: the count and
  -- then each byte through the `uint8` case — the same bytes as the fast
  -- path.  A named scalar/string kind is not handled: "unsupported type".
  | .vnamed (.vbytes bs), out => encVBytesAsSlice bs (out ++ uvarint bs.length)
  | .vnamed (.vslice _ es), out => encVList es (out ++ uvarint es.length)
  | .vnamed (.varray _ es), out => encVList es (out ++ uvarint es.length)
  | .vnamed (.vstruct fs), out => encVFields fs out
  | .vnamed (.vmap _ _ ps), out => encVPairs ps (out ++ uvarint ps.length)
  | .vnamed _, out => (out, some "unsupported type")

/-- Elements of a byte slice routed through the generic sequence path:
each byte is encoded by the `uint8` case, i.e. written verbatim. -/
def encVBytesAsSlice : List Nat → List Nat → List Nat × Option String
  | [], out => (out, none)
  | b :: bs, out => encVBytesAsSlice bs (out ++ [b])

def encVList : VList → List Nat → List Nat × Option String
  | .nil, out => (out, none)
  | .cons v rest, out =>
    match encGo v out with
    | (out', none) => encVList rest out'
    | r => r

def encVFields : VFields → List Nat → List Nat × Option String
  | .nil, out => (out, none)
  | .cons sk v rest, out =>
    if sk then encVFields rest out
    else
      match encGo v out with
      | (out', none) => encVFields rest out'
      | r => r

def encVPairs : VPairs → List Nat → List Nat × Option String
  | .nil, out => (out, none)
  | .cons k v rest, out =>
    match encGo k out with
    | (out', none) =>
      match encGo v out' with
      | (out'', none) => encVPairs rest out''
      | r => r
    | r => r
end

/-- `Marshal` (src/binary.go lines 18–24): encode into a fresh buffer;
on error the partial buffer is dropped and only the error returned. -/
def Marshal (v : GoValue) : Except String (List Nat) :=
  match encGo v [] with
  | (bs, none) => .ok bs
  | (_, some e) => .error e

/-! ## The decoder (`Decoder.Decode`, src/binary.go lines 141–242)

`Unmarshal` wraps the input bytes in a `bytes.Reader` behind a
`bufio.Reader` (buffer size 4096); the stream is the list of bytes not yet
consumed.  This one-list state identifies `bufio`'s buffered bytes with
the unread source, which is exact precisely when the whole input fits the
buffer: the first byte the decoder asks for (the first varint prefix)
makes `bufio` fill its buffer with one underlying read, and a
`bytes.Reader` delivers everything it has in that call, so from then on
buffered = remaining, and an empty buffer means an exhausted source.  For
an input larger than 4096 bytes the identification breaks for the two
single-call reads below: one `bufio.Read` takes bytes from at most one
underlying read — in practice at most the buffered content — so it can
return fewer bytes than remain in the source, and the program zero-fills
part of a long string or custom blob that this model would deliver intact.
The byte-at-a-time `ReadByte` (varints) and the looping `io.ReadFull`
(fixed scalars) refill across calls and are exact at every input size;
only `bufioRead` and `readDiscarded` are size-sensitive, and every theorem
below that relies on them carries an explicit `≤ 4096` bound on the
source.

Three read primitives with three different behaviours appear in the
source:

* `readFull`: `binary.Read` (used for every fixed scalar) calls
  `io.ReadFull`, which loops until the buffer is full and fails when the
  source runs out first — exact at every input size;
* `bufioRead`: the string case calls `d.r.Read(buf)` once and checks only
  the error, not the count.  In the fits-the-buffer regime that single
  `Read` returns all remaining bytes up to the requested length: zero
  bytes with at least one requested is `EOF`; a nonempty partial read
  returns no error, leaving the tail of `buf` at its zero initialisation;
* `readDiscarded`: the `encoding.BinaryUnmarshaler` case makes the same
  single `Read` but then returns `i.UnmarshalBinary(buf)` directly, so the
  assigned read error is discarded — even a zero-byte read is passed on as
  a zero-filled buffer. -/

def readFull (l : Nat) (s : List Nat) : Except String (List Nat × List Nat) :=
  if s.length < l then .error "unexpected EOF" else .ok (s.take l, s.drop l)

def bufioRead (l : Nat) (s : List Nat) : Except String (List Nat × List Nat) :=
  if l = 0 then .ok ([], s)
  else if s = [] then .error "EOF"
  else .ok (s.take l ++ List.replicate (l - s.length) 0, s.drop l)

def readDiscarded (l : Nat) (s : List Nat) : List Nat × List Nat :=
  (s.take l ++ List.replicate (l - s.length) 0, s.drop l)

/-- Decode `count` consecutive elements with the element decoder `d`
(the loop bodies of the Array/Slice cases). -/
def decCount (d : List Nat → Except String (GoValue × List Nat)) :
    Nat → List Nat → Except String (VList × List Nat)
  | 0, s => .ok (.nil, s)
  | l + 1, s => do
    let (v, s₁) ← d s
    let (vs, s₂) ← decCount d l s₁
    .ok (.cons v vs, s₂)

/-- `reflect.Value.SetMapIndex` on the association-list model of a Go map:
an existing key's entry is overwritten in place, a new key is appended in
insertion order. -/
def mapSet : VPairs → GoValue → GoValue → VPairs
  | .nil, k, v => .cons k v .nil
  | .cons k' v' rest, k, v =>
    if k' = k then .cons k' v rest else .cons k' v' (mapSet rest k v)

/-- The map decode loop: `count` freshly decoded key/value pairs inserted
into the accumulator (initially the empty map `MakeMap` installed). -/
def decPairsCount (dk dv : List Nat → Except String (GoValue × List Nat)) :
    Nat → VPairs → List Nat → Except String (VPairs × List Nat)
  | 0, acc, s => .ok (acc, s)
  | l + 1, acc, s => do
    let (k, s₁) ← dk s
    let (v, s₂) ← dv s₁
    decPairsCount dk dv l (mapSet acc k v) s₂

def VList.replicate : Nat → GoValue → VList
  | 0, _ => .nil
  | n + 1, v => .cons v (VList.replicate n v)

/-! The zero value of each type: what a freshly allocated decode target
holds before (and, for skipped fields, after) decoding. -/

mutual
def zeroValue : GoType → GoValue
  | .tstring => .vstring []
  | .tbool => .vbool false
  | .tint => .vint 0
  | .tuint => .vuint 0
  | .tscalar w => .vscalar w 0
  | .tbytes => .vbytes []
  | .tcustom => .vmarshaler (.ok [])
  | .tslice t => .vslice t .nil
  | .tarray n t => .varray t (VList.replicate n (zeroValue t))
  | .tstruct fs => .vstruct (zeroFields fs)
  | .tmap kt vt => .vmap kt vt .nil

def zeroFields : TFields → VFields
  | .nil => .nil
  | .cons sk t rest => .cons sk (zeroValue t) (zeroFields rest)
end

mutual
def decGo : GoType → List Nat → Except String (GoValue × List Nat)
  -- case *string: varint length, one unchecked Read, then assign
  | .tstring, s => do
    let (l, s₁) ← readUvarint s
    let (buf, s₂) ← bufioRead l s₁
    .ok (.vstring buf, s₂)
  -- case *bool: one byte via binary.Read; any nonzero byte is true
  | .tbool, s => do
    let (bs, s₁) ← readFull 1 s
    .ok (.vbool (fromLE bs != 0), s₁)
  -- case *int / *uint: binary.Read of a 64-bit value, then narrowed
  | .tint, s => do
    let (bs, s₁) ← readFull 8 s
    .ok (.vint (fromLE bs), s₁)
  | .tuint, s => do
    let (bs, s₁) ← readFull 8 s
    .ok (.vuint (fromLE bs), s₁)
  -- case *int8 ... *complex128: binary.Read at the declared width
  | .tscalar w, s => do
    let (bs, s₁) ← readFull w s
    .ok (.vscalar w (fromLE bs), s₁)
  -- default, encoding.BinaryUnmarshaler: varint length, one Read whose
  -- error is assigned and then dropped by `return i.UnmarshalBinary(buf)`;
  -- the modelled target's UnmarshalBinary stores the buffer and succeeds
  | .tcustom, s => do
    let (l, s₁) ← readUvarint s
    let (buf, s₂) := readDiscarded l s₁
    .ok (.vmarshaler (.ok buf), s₂)
  -- reflection, Slice kind with uint8 elements (a []byte target): the
  -- count, then count one-byte element decodes through the *uint8 case —
  -- net effect, exactly `l` bytes via ReadFull semantics
  | .tbytes, s => do
    let (l, s₁) ← readUvarint s
    let (bs, s₂) ← readFull l s₁
    .ok (.vbytes bs, s₂)
  -- reflection, Slice kind: resize to the decoded count, decode elements
  | .tslice t, s => do
    let (l, s₁) ← readUvarint s
    let (es, s₂) ← decCount (decGo t) l s₁
    .ok (.vslice t es, s₂)
  -- reflection, Array kind: the decoded count must equal the declared
  -- length exactly, else "encoded size %d != real size %d"
  | .tarray n t, s => do
    let (l, s₁) ← readUvarint s
    if l ≠ n then
      .error ("encoded size " ++ toString l ++ " != real size " ++ toString n)
    else do
      let (es, s₂) ← decCount (decGo t) l s₁
      .ok (.varray t es, s₂)
  -- reflection, Struct kind: fields in declaration order
  | .tstruct fs, s => do
    let (vs, s₁) ← decTFields fs s
    .ok (.vstruct vs, s₁)
  -- reflection, Map kind: fresh empty map, then count decoded pairs
  | .tmap kt vt, s => do
    let (l, s₁) ← readUvarint s
    let (ps, s₂) ← decPairsCount (decGo kt) (decGo vt) l .nil s₁
    .ok (.vmap kt vt ps, s₂)

def decTFields : TFields → List Nat → Except String (VFields × List Nat)
  | .nil, s => .ok (.nil, s)
  | .cons sk t rest, s =>
    if sk then do
      -- a skipped field is not decoded: the freshly allocated target
      -- keeps the zero value there
      let (vs, s₁) ← decTFields rest s
      .ok (.cons sk (zeroValue t) vs, s₁)
    else do
      let (v, s₁) ← decGo t s
      let (vs, s₂) ← decTFields rest s₁
      .ok (.cons sk v vs, s₂)
end

/-- `Unmarshal` (src/binary.go lines 26–28) with the addressability of the
target made explicit: every pointer case of the decoder's type switch
requires a pointer dynamic type, and a non-pointer target reaching the
reflection branch fails `rv.CanAddr()` (src/binary.go lines 184–187), so a
target passed by value is always rejected. -/
def Unmarshal (isPtr : Bool) (t : GoType) (bs : List Nat) : Except String GoValue :=
  if isPtr then (decGo t bs).map Prod.fst
  else .error "can only Decode to pointer type"

/-! ## Well-formed values

`wfGo` delimits the universe the round-trip theorem quantifies over:
byte-pattern invariants every real Go value satisfies (bit patterns within
their width; lengths and element counts below `2^56`, the bound below
which `writeVarint`'s 8-byte scratch buffer suffices — a Go length is
below `2^50` in any addressable memory in any case), homogeneous
containers (every element has the
container's element type, as Go's static types force), map keys distinct
(as in any Go map) and, for a skipped struct field, a zero value there —
a fresh decode target can never receive anything else in such a field.
Named values and failing custom marshalers are excluded: the encoder
rejects the former (see the C2 analysis) and fails on the latter. -/

def keyMem (k : GoValue) : VPairs → Bool
  | .nil => false
  | .cons k' _ rest => decide (k' = k) || keyMem k rest

mutual
def wfGo : GoValue → Bool
  | .vmarshaler (.ok buf) => decide (buf.length < 2 ^ 56)
  | .vmarshaler (.error _) => false
  | .vbytes bs => decide (bs.length < 2 ^ 56)
  | .vstring bs => decide (bs.length < 2 ^ 56)
  | .vbool _ => true
  | .vint bits => decide (bits < 2 ^ 64)
  | .vuint bits => decide (bits < 2 ^ 64)
  | .vscalar w bits => decide (bits < 2 ^ (8 * w))
  | .vnamed _ => false
  | .vslice t es => decide (es.length < 2 ^ 56) && wfVListT t es
  | .varray t es => decide (es.length < 2 ^ 56) && wfVListT t es
  | .vstruct fs => wfVFields fs
  | .vmap kt vt ps => decide (ps.length < 2 ^ 56) && wfVPairsT kt vt ps

def wfVListT : GoType → VList → Bool
  | _, .nil => true
  | t, .cons v rest => decide (typeOf v = t) && wfGo v && wfVListT t rest

def wfVFields : VFields → Bool
  | .nil => true
  | .cons sk v rest =>
    (if sk then decide (v = zeroValue (typeOf v)) else wfGo v) && wfVFields rest

def wfVPairsT : GoType → GoType → VPairs → Bool
  | _, _, .nil => true
  | kt, vt, .cons k v rest =>
    decide (typeOf k = kt) && wfGo k && decide (typeOf v = vt) && wfGo v &&
      !keyMem k rest && wfVPairsT kt vt rest
end

/-! Pure views of the encoder: the bytes a value contributes and the error
it raises, both read off a run on the empty sink. -/

def encBytes (v : GoValue) : List Nat :=
  (encGo v []).1

def encErr (v : GoValue) : Option String :=
  (encGo v []).2

def encBytesL (es : VList) : List Nat :=
  (encVList es []).1

def encErrL (es : VList) : Option String :=
  (encVList es []).2

def encBytesF (fs : VFields) : List Nat :=
  (encVFields fs []).1

def encErrF (fs : VFields) : Option String :=
  (encVFields fs []).2

def encBytesP (ps : VPairs) : List Nat :=
  (encVPairs ps []).1

def encErrP (ps : VPairs) : Option String :=
  (encVPairs ps []).2

/-- Every key of `ps` is absent from `acc`. -/
def pairsFresh : VPairs → VPairs → Bool
  | .nil, _ => true
  | .cons k _ rest, acc => !keyMem k acc && pairsFresh rest acc

/-- The byte width `binary.Read` uses for each scalar decode target
(`none` for non-scalar targets). -/
def scalarWidth : GoType → Option Nat
  | .tbool => some 1
  | .tint => some 8
  | .tuint => some 8
  | .tscalar w => some w
  | _ => none

/-- A sample well-formed value exercising strings, native ints, bools, maps
and slices (the shape of the repository's `s1` test struct). -/
def sampleValue : GoValue :=
  .vstruct
    (.cons false (.vstring [66, 111, 98])
    (.cons false (.vint 2)
    (.cons false (.vbool true)
    (.cons false (.vmap .tstring .tstring
      (.cons (.vstring [107]) (.vstring [118]) .nil))
    (.cons false (.vslice .tstring
      (.cons (.vstring [97]) (.cons (.vstring [98]) .nil)))
    .nil)))))

theorem uvarintGo_small {f x : Nat} (h : x < 128) : uvarintGo f x = [x] := by
  cases f with
  | zero => rfl
  | succ f => simp [uvarintGo, h]

theorem uvarintGo_large {f x : Nat} (h : ¬ x < 128) :
    uvarintGo (f + 1) x = (x % 128 + 128) :: uvarintGo f (x / 128) := by
  simp [uvarintGo, h]

/-- Fuel does not matter as long as it is at least the value. -/
theorem uvarintGo_fuel {x : Nat} : ∀ {f g : Nat}, x ≤ f → x ≤ g →
    uvarintGo f x = uvarintGo g x := by
  induction x using Nat.strong_induction_on with
  | _ x ih =>
    intro f g hf hg
    by_cases hx : x < 128
    · rw [uvarintGo_small hx, uvarintGo_small hx]
    · have hx128 : 128 ≤ x := Nat.le_of_not_lt hx
      obtain ⟨f', rfl⟩ : ∃ f', f = f' + 1 :=
        ⟨f - 1, by omega⟩
      obtain ⟨g', rfl⟩ : ∃ g', g = g' + 1 :=
        ⟨g - 1, by omega⟩
      rw [uvarintGo_large hx, uvarintGo_large hx]
      have hlt : x / 128 < x := Nat.div_lt_self (by omega) (by omega)
      have h1 : x / 128 ≤ f' := by
        have := Nat.div_le_self x 128
        omega
      have h2 : x / 128 ≤ g' := by
        have := Nat.div_le_self x 128
        omega
      rw [ih (x / 128) hlt h1 h2]

/-- Reading back a canonical varint: the decoder consumes exactly the bytes
`uvarintGo g n` and accumulates `n` shifted into place, provided `n` fits
into the fuel that remains (`n < 2^(7*(f-1)+1)`, which is `n < 2^64` at the
top level `f = 10`). -/
theorem readUvarintAux_uvarintGo :
    ∀ (n : Nat), ∀ (f g acc s : Nat) (rest : List Nat), n ≤ g → 1 ≤ f →
    n < 2 ^ (7 * (f - 1) + 1) →
    readUvarintAux f acc s (uvarintGo g n ++ rest) = .ok (acc + n * 2 ^ s, rest) := by
  intro n
  induction n using Nat.strong_induction_on with
  | _ n ih =>
    intro f g acc s rest _ hf hbound
    obtain ⟨f', rfl⟩ : ∃ f', f = f' + 1 := ⟨f - 1, by omega⟩
    by_cases hn : n < 128
    · rw [uvarintGo_small hn]
      show readUvarintAux (f' + 1) acc s (n :: rest) = _
      rw [readUvarintAux]
      have : ¬ (f' = 0 ∧ 1 < n) := by
        rintro ⟨rfl, h1⟩
        simp at hbound
        omega
      simp [hn, this]
    · have hf' : 1 ≤ f' := by
        rcases Nat.eq_zero_or_pos f' with h0 | h1
        · subst h0; simp at hbound; omega
        · exact h1
      obtain ⟨g', rfl⟩ : ∃ g', g = g' + 1 := ⟨g - 1, by omega⟩
      rw [uvarintGo_large hn]
      show readUvarintAux (f' + 1) acc s ((n % 128 + 128) :: (uvarintGo g' (n / 128) ++ rest)) = _
      rw [readUvarintAux]
      have hb : ¬ (n % 128 + 128 < 128) := by omega
      simp only [hb, if_false]
      have hmod : (n % 128 + 128) % 128 = n % 128 := by omega
      rw [hmod]
      have hlt : n / 128 < n := Nat.div_lt_self (by omega) (by omega)
      have hg' : n / 128 ≤ g' := by
        have := Nat.div_le_self n 128
        omega
      have hbound' : n / 128 < 2 ^ (7 * (f' - 1) + 1) := by
        have h1 : n < 2 ^ (7 * f' + 1) := hbound
        have h2 : 7 * (f' - 1) + 1 + 7 = 7 * f' + 1 := by omega
        rw [Nat.div_lt_iff_lt_mul (by omega : 0 < 128)]
        calc n < 2 ^ (7 * f' + 1) := h1
        _ = 2 ^ (7 * (f' - 1) + 1) * 128 := by rw [← h2]; ring
      rw [ih (n / 128) hlt f' g' (acc + n % 128 * 2 ^ s) (s + 7) rest hg' hf' hbound']
      have hxy : acc + n % 128 * 2 ^ s + n / 128 * 2 ^ (s + 7) = acc + n * 2 ^ s := by
        have h128 : n % 128 + 128 * (n / 128) = n := Nat.mod_add_div n 128
        calc acc + n % 128 * 2 ^ s + n / 128 * 2 ^ (s + 7)
            = acc + (n % 128 + 128 * (n / 128)) * 2 ^ s := by ring
          _ = acc + n * 2 ^ s := by rw [h128]
      rw [hxy]

/-- Round-trip of the varint codec on canonical encodings of 64-bit values,
with arbitrary trailing bytes. -/
theorem readUvarint_uvarint {n : Nat} (h : n < 2 ^ 64) (rest : List Nat) :
    readUvarint (uvarint n ++ rest) = .ok (n, rest) := by
  have := readUvarintAux_uvarintGo n 10 n 0 0 rest (Nat.le_refl n) (by omega)
    (by simpa using h)
  simpa [readUvarint, uvarint] using this

/-! ## Little-endian scalar lemmas -/

theorem toLE_length (w n : Nat) : (toLE w n).length = w := by
  induction w generalizing n with
  | zero => rfl
  | succ w ih => simp [toLE, ih]

theorem fromLE_toLE {w n : Nat} (h : n < 256 ^ w) : fromLE (toLE w n) = n := by
  induction w generalizing n with
  | zero =>
    simp at h
    simp [toLE, fromLE, h]
  | succ w ih =>
    have hdiv : n / 256 < 256 ^ w := by
      rw [Nat.div_lt_iff_lt_mul (by omega : 0 < 256)]
      calc n < 256 ^ (w + 1) := h
      _ = 256 ^ w * 256 := by ring
    simp only [toLE, fromLE, ih hdiv]
    omega

theorem pow256_eq (w : Nat) : 256 ^ w = 2 ^ (8 * w) := by
  calc (256 : Nat) ^ w = (2 ^ 8) ^ w := by norm_num
  _ = 2 ^ (8 * w) := by rw [← pow_mul]

theorem lt_exp64_of_lt_exp56 {n : Nat} (h : n < 2 ^ 56) : n < 2 ^ 64 :=
  lt_trans h (by norm_num)

/-! ## Read-primitive lemmas -/

theorem readFull_append {l : Nat} {bs : List Nat} (rest : List Nat)
    (h : bs.length = l) : readFull l (bs ++ rest) = .ok (bs, rest) := by
  subst h
  simp [readFull, List.take_left, List.drop_left]

theorem bufioRead_exact {l : Nat} {bs : List Nat} (rest : List Nat)
    (h : bs.length = l) : bufioRead l (bs ++ rest) = .ok (bs, rest) := by
  subst h
  rcases bs with _ | ⟨b, bs'⟩
  · simp [bufioRead]
  · simp only [bufioRead]
    rw [if_neg (by simp), if_neg (by simp)]
    simp [List.take_left, List.drop_left]

theorem readDiscarded_exact {l : Nat} {bs : List Nat} (rest : List Nat)
    (h : bs.length = l) : readDiscarded l (bs ++ rest) = (bs, rest) := by
  subst h
  simp [readDiscarded, List.take_left, List.drop_left]

/-! ## Encoder accumulator lemmas: what is written is appended to the sink -/

theorem encVBytesAsSlice_out (bs : List Nat) :
    ∀ out, encVBytesAsSlice bs out = (out ++ bs, none) := by
  induction bs with
  | nil => intro out; simp [encVBytesAsSlice]
  | cons b bs ih => intro out; simp [encVBytesAsSlice, ih]

mutual

theorem encGo_out (v : GoValue) (out : List Nat) :
    encGo v out = (out ++ encBytes v, encErr v) := by
  cases v with
  | vmarshaler r => cases r <;> simp [encGo, encBytes, encErr]
  | vbytes bs => simp [encGo, encBytes, encErr]
  | vstring bs => simp [encGo, encBytes, encErr]
  | vbool b => simp [encGo, encBytes, encErr]
  | vint bits => simp [encGo, encBytes, encErr]
  | vuint bits => simp [encGo, encBytes, encErr]
  | vscalar w bits => simp [encGo, encBytes, encErr]
  | vslice t es =>
    simp only [encGo, encBytes, encErr]
    rw [encVList_out es (out ++ uvarint es.length), encVList_out es ([] ++ uvarint es.length)]
    simp
  | varray t es =>
    simp only [encGo, encBytes, encErr]
    rw [encVList_out es (out ++ uvarint es.length), encVList_out es ([] ++ uvarint es.length)]
    simp
  | vstruct fs =>
    simp only [encGo, encBytes, encErr]
    rw [encVFields_out fs out, encVFields_out fs []]
    simp
  | vmap kt vt ps =>
    simp only [encGo, encBytes, encErr]
    rw [encVPairs_out ps (out ++ uvarint ps.length), encVPairs_out ps ([] ++ uvarint ps.length)]
    simp
  | vnamed v' =>
    cases v' with
    | vmarshaler r => cases r <;> simp [encGo, encBytes, encErr]
    | vbytes bs =>
      simp only [encGo, encBytes, encErr]
      rw [encVBytesAsSlice_out bs (out ++ uvarint bs.length),
        encVBytesAsSlice_out bs ([] ++ uvarint bs.length)]
      simp
    | vslice t es =>
      simp only [encGo, encBytes, encErr]
      rw [encVList_out es (out ++ uvarint es.length), encVList_out es ([] ++ uvarint es.length)]
      simp
    | varray t es =>
      simp only [encGo, encBytes, encErr]
      rw [encVList_out es (out ++ uvarint es.length), encVList_out es ([] ++ uvarint es.length)]
      simp
    | vstruct fs =>
      simp only [encGo, encBytes, encErr]
      rw [encVFields_out fs out, encVFields_out fs []]
      simp
    | vmap kt vt ps =>
      simp only [encGo, encBytes, encErr]
      rw [encVPairs_out ps (out ++ uvarint ps.length), encVPairs_out ps ([] ++ uvarint ps.length)]
      simp
    | vstring bs => simp [encGo, encBytes, encErr]
    | vbool b => simp [encGo, encBytes, encErr]
    | vint bits => simp [encGo, encBytes, encErr]
    | vuint bits => simp [encGo, encBytes, encErr]
    | vscalar w bits => simp [encGo, encBytes, encErr]
    | vnamed v'' => simp [encGo, encBytes, encErr]

theorem encVList_out (es : VList) (out : List Nat) :
    encVList es out = (out ++ encBytesL es, encErrL es) := by
  cases es with
  | nil => simp [encVList, encBytesL, encErrL]
  | cons v rest =>
    simp only [encVList, encBytesL, encErrL]
    rw [encGo_out v out, encGo_out v []]
    cases hE : encErr v with
    | none =>
      simp only [hE]
      rw [encVList_out rest (out ++ encBytes v), encVList_out rest ([] ++ encBytes v)]
      simp
    | some e => simp [hE]

theorem encVFields_out (fs : VFields) (out : List Nat) :
    encVFields fs out = (out ++ encBytesF fs, encErrF fs) := by
  cases fs with
  | nil => simp [encVFields, encBytesF, encErrF]
  | cons sk v rest =>
    cases sk with
    | true =>
      simp only [encVFields, encBytesF, encErrF, if_true]
      rw [encVFields_out rest out, encVFields_out rest []]
      simp
    | false =>
      simp only [encVFields, encBytesF, encErrF, if_false, Bool.false_eq_true]
      rw [encGo_out v out, encGo_out v []]
      cases hE : encErr v with
      | none =>
        simp only [hE]
        rw [encVFields_out rest (out ++ encBytes v), encVFields_out rest ([] ++ encBytes v)]
        simp
      | some e => simp [hE]

theorem encVPairs_out (ps : VPairs) (out : List Nat) :
    encVPairs ps out = (out ++ encBytesP ps, encErrP ps) := by
  cases ps with
  | nil => simp [encVPairs, encBytesP, encErrP]
  | cons k v rest =>
    simp only [encVPairs, encBytesP, encErrP]
    rw [encGo_out k out, encGo_out k []]
    cases hEk : encErr k with
    | none =>
      simp only [hEk]
      rw [encGo_out v (out ++ encBytes k), encGo_out v ([] ++ encBytes k)]
      cases hEv : encErr v with
      | none =>
        simp only [hEv]
        rw [encVPairs_out rest (out ++ encBytes k ++ encBytes v),
          encVPairs_out rest ([] ++ encBytes k ++ encBytes v)]
        simp
      | some e => simp [hEv]
    | some e => simp [hEk]

end

/-! ## Pure-view computation lemmas for the encoder -/

theorem encVList_cons_ok {v : GoValue} (rest : VList) (h : encErr v = none) :
    encBytesL (.cons v rest) = encBytes v ++ encBytesL rest ∧
    encErrL (.cons v rest) = encErrL rest := by
  have hc : encVList (.cons v rest) [] = (encBytes v ++ encBytesL rest, encErrL rest) := by
    rw [encVList, encGo_out v [], h]
    simp only [List.nil_append]
    rw [encVList_out rest (encBytes v)]
  simp [encBytesL, encErrL, hc]

theorem encVFields_cons_skip (v : GoValue) (rest : VFields) :
    encBytesF (.cons true v rest) = encBytesF rest ∧
    encErrF (.cons true v rest) = encErrF rest := by
  have hc : encVFields (.cons true v rest) [] = (encBytesF rest, encErrF rest) := by
    rw [encVFields]
    simp only [if_true]
    rw [encVFields_out rest []]
    simp
  simp [encBytesF, encErrF, hc]

theorem encVFields_cons_ok {v : GoValue} (rest : VFields) (h : encErr v = none) :
    encBytesF (.cons false v rest) = encBytes v ++ encBytesF rest ∧
    encErrF (.cons false v rest) = encErrF rest := by
  have hc : encVFields (.cons false v rest) [] = (encBytes v ++ encBytesF rest, encErrF rest) := by
    rw [encVFields]
    simp only [Bool.false_eq_true, if_false]
    rw [encGo_out v [], h]
    simp only [List.nil_append]
    rw [encVFields_out rest (encBytes v)]
  simp [encBytesF, encErrF, hc]

theorem encVPairs_cons_ok {k v : GoValue} (rest : VPairs)
    (hk : encErr k = none) (hv : encErr v = none) :
    encBytesP (.cons k v rest) = encBytes k ++ encBytes v ++ encBytesP rest ∧
    encErrP (.cons k v rest) = encErrP rest := by
  have hc : encVPairs (.cons k v rest) [] =
      (encBytes k ++ encBytes v ++ encBytesP rest, encErrP rest) := by
    rw [encVPairs, encGo_out k [], hk]
    simp only [List.nil_append]
    rw [encGo_out v (encBytes k), hv]
    simp only
    rw [encVPairs_out rest (encBytes k ++ encBytes v)]
  simp [encBytesP, encErrP, hc, List.append_assoc]

/-! ## Map insertion lemmas -/

theorem keyMem_append (x : GoValue) (a b : VPairs) :
    keyMem x (a.append b) = (keyMem x a || keyMem x b) := by
  cases a with
  | nil => simp [VPairs.append, keyMem]
  | cons k v rest => simp [VPairs.append, keyMem, keyMem_append x rest b, Bool.or_assoc]

theorem VPairs.append_assoc (a b c : VPairs) :
    (a.append b).append c = a.append (b.append c) := by
  cases a with
  | nil => simp [VPairs.append]
  | cons k v rest => simp [VPairs.append, VPairs.append_assoc rest b c]

theorem mapSet_fresh {k : GoValue} (v : GoValue) : ∀ {acc : VPairs},
    keyMem k acc = false → mapSet acc k v = acc.append (.cons k v .nil)
  | .nil, _ => by simp [mapSet, VPairs.append]
  | .cons k' v' rest, h => by
    simp only [keyMem, Bool.or_eq_false_iff, decide_eq_false_iff_not] at h
    simp [mapSet, VPairs.append, h.1, mapSet_fresh v h.2]

theorem VPairs.append_nil (a : VPairs) : a.append .nil = a := by
  cases a with
  | nil => rfl
  | cons k v rest => simp [VPairs.append, VPairs.append_nil rest]

theorem pairsFresh_nil (ps : VPairs) : pairsFresh ps .nil = true := by
  cases ps with
  | nil => rfl
  | cons k v rest => simp [pairsFresh, keyMem, pairsFresh_nil rest]

theorem pairsFresh_extend {k : GoValue} (v : GoValue) : ∀ {ps acc : VPairs},
    keyMem k ps = false → pairsFresh ps acc = true →
    pairsFresh ps (acc.append (.cons k v .nil)) = true
  | .nil, _, _, _ => rfl
  | .cons k₀ v₀ rest, acc, hmem, hf => by
    simp only [keyMem, Bool.or_eq_false_iff, decide_eq_false_iff_not] at hmem
    simp only [pairsFresh, Bool.and_eq_true, Bool.not_eq_true'] at hf
    have hne : (decide (k = k₀) : Bool) = false := by
      simp only [decide_eq_false_iff_not]
      intro hkk
      exact hmem.1 hkk.symm
    simp only [pairsFresh, Bool.and_eq_true, Bool.not_eq_true']
    refine ⟨?_, pairsFresh_extend v hmem.2 hf.2⟩
    rw [keyMem_append]
    simp [keyMem, hf.1, hne]

/-! ## The round trip

By mutual induction over the value: a well-formed value encodes without
error, and decoding its bytes (with any trailing bytes) at its own type
returns exactly the value and leaves the trailing bytes unread. -/

mutual

theorem dec_enc (v : GoValue) (h : wfGo v = true) (rest : List Nat) :
    encErr v = none ∧ decGo (typeOf v) (encBytes v ++ rest) = .ok (v, rest) := by
  cases v with
  | vmarshaler r =>
    cases r with
    | error e => simp [wfGo] at h
    | ok buf =>
      simp only [wfGo, decide_eq_true_eq] at h
      refine ⟨rfl, ?_⟩
      have hB : encBytes (GoValue.vmarshaler (.ok buf)) = uvarint buf.length ++ buf := by
        simp [encBytes, encGo]
      simp only [typeOf]
      rw [hB, List.append_assoc, decGo, readUvarint_uvarint (lt_exp64_of_lt_exp56 h) (buf ++ rest)]
      simp only [bind, Except.bind]
      rw [readDiscarded_exact rest rfl]
  | vbytes bs =>
    simp only [wfGo, decide_eq_true_eq] at h
    refine ⟨rfl, ?_⟩
    have hB : encBytes (GoValue.vbytes bs) = uvarint bs.length ++ bs := by
      simp [encBytes, encGo]
    simp only [typeOf]
    rw [hB, List.append_assoc, decGo, readUvarint_uvarint (lt_exp64_of_lt_exp56 h) (bs ++ rest)]
    simp only [bind, Except.bind]
    rw [readFull_append rest rfl]
  | vstring bs =>
    simp only [wfGo, decide_eq_true_eq] at h
    refine ⟨rfl, ?_⟩
    have hB : encBytes (GoValue.vstring bs) = uvarint bs.length ++ bs := by
      simp [encBytes, encGo]
    simp only [typeOf]
    rw [hB, List.append_assoc, decGo, readUvarint_uvarint (lt_exp64_of_lt_exp56 h) (bs ++ rest)]
    simp only [bind, Except.bind]
    rw [bufioRead_exact rest rfl]
  | vbool b =>
    refine ⟨rfl, ?_⟩
    have hB : encBytes (GoValue.vbool b) = [boolByte b] := by
      simp [encBytes, encGo]
    simp only [typeOf]
    rw [hB, decGo, readFull_append rest (by simp)]
    simp only [bind, Except.bind]
    cases b <;> simp [fromLE, boolByte]
  | vint bits =>
    simp only [wfGo, decide_eq_true_eq] at h
    refine ⟨rfl, ?_⟩
    have hB : encBytes (GoValue.vint bits) = toLE 8 bits := by
      simp [encBytes, encGo]
    simp only [typeOf]
    rw [hB, decGo, readFull_append rest (toLE_length 8 bits)]
    simp only [bind, Except.bind]
    rw [fromLE_toLE (by rw [pow256_eq]; simpa using h)]
  | vuint bits =>
    simp only [wfGo, decide_eq_true_eq] at h
    refine ⟨rfl, ?_⟩
    have hB : encBytes (GoValue.vuint bits) = toLE 8 bits := by
      simp [encBytes, encGo]
    simp only [typeOf]
    rw [hB, decGo, readFull_append rest (toLE_length 8 bits)]
    simp only [bind, Except.bind]
    rw [fromLE_toLE (by rw [pow256_eq]; simpa using h)]
  | vscalar w bits =>
    simp only [wfGo, decide_eq_true_eq] at h
    refine ⟨rfl, ?_⟩
    have hB : encBytes (GoValue.vscalar w bits) = toLE w bits := by
      simp [encBytes, encGo]
    simp only [typeOf]
    rw [hB, decGo, readFull_append rest (toLE_length w bits)]
    simp only [bind, Except.bind]
    rw [fromLE_toLE (by rw [pow256_eq]; exact h)]
  | vnamed v' => simp [wfGo] at h
  | vslice t es =>
    simp only [wfGo, Bool.and_eq_true, decide_eq_true_eq] at h
    obtain ⟨hl, hlist⟩ := h
    obtain ⟨hErrL, hDecL⟩ := dec_enc_list t es hlist rest
    have hv : encBytes (GoValue.vslice t es) = uvarint es.length ++ encBytesL es ∧
        encErr (GoValue.vslice t es) = encErrL es := by
      simp only [encBytes, encErr, encGo]
      rw [encVList_out es ([] ++ uvarint es.length)]
      simp
    refine ⟨hv.2 ▸ hErrL, ?_⟩
    simp only [typeOf]
    rw [hv.1, List.append_assoc, decGo, readUvarint_uvarint (lt_exp64_of_lt_exp56 hl) (encBytesL es ++ rest)]
    simp only [bind, Except.bind]
    rw [hDecL]
  | varray t es =>
    simp only [wfGo, Bool.and_eq_true, decide_eq_true_eq] at h
    obtain ⟨hl, hlist⟩ := h
    obtain ⟨hErrL, hDecL⟩ := dec_enc_list t es hlist rest
    have hv : encBytes (GoValue.varray t es) = uvarint es.length ++ encBytesL es ∧
        encErr (GoValue.varray t es) = encErrL es := by
      simp only [encBytes, encErr, encGo]
      rw [encVList_out es ([] ++ uvarint es.length)]
      simp
    refine ⟨hv.2 ▸ hErrL, ?_⟩
    simp only [typeOf]
    rw [hv.1, List.append_assoc, decGo, readUvarint_uvarint (lt_exp64_of_lt_exp56 hl) (encBytesL es ++ rest)]
    simp only [bind, Except.bind, ne_eq, not_true_eq_false, if_false, reduceIte]
    rw [hDecL]
  | vstruct fs =>
    simp only [wfGo] at h
    obtain ⟨hErrF, hDecF⟩ := dec_enc_fields fs h rest
    have hv : encBytes (GoValue.vstruct fs) = encBytesF fs ∧
        encErr (GoValue.vstruct fs) = encErrF fs := by
      simp only [encBytes, encErr, encGo]
      rw [encVFields_out fs []]
      simp [encBytesF, encErrF]
    refine ⟨hv.2 ▸ hErrF, ?_⟩
    simp only [typeOf]
    rw [hv.1, decGo, hDecF]
    simp only [bind, Except.bind]
  | vmap kt vt ps =>
    simp only [wfGo, Bool.and_eq_true, decide_eq_true_eq] at h
    obtain ⟨hl, hps⟩ := h
    obtain ⟨hErrP, hDecP⟩ :=
      dec_enc_pairs kt vt ps hps .nil (pairsFresh_nil ps) rest
    have hv : encBytes (GoValue.vmap kt vt ps) = uvarint ps.length ++ encBytesP ps ∧
        encErr (GoValue.vmap kt vt ps) = encErrP ps := by
      simp only [encBytes, encErr, encGo]
      rw [encVPairs_out ps ([] ++ uvarint ps.length)]
      simp
    refine ⟨hv.2 ▸ hErrP, ?_⟩
    simp only [typeOf]
    rw [hv.1, List.append_assoc, decGo, readUvarint_uvarint (lt_exp64_of_lt_exp56 hl) (encBytesP ps ++ rest)]
    simp only [bind, Except.bind]
    rw [hDecP]
    simp [VPairs.append]

theorem dec_enc_list (t : GoType) (es : VList) (h : wfVListT t es = true)
    (rest : List Nat) :
    encErrL es = none ∧
    decCount (decGo t) es.length (encBytesL es ++ rest) = .ok (es, rest) := by
  cases es with
  | nil => exact ⟨rfl, by simp [encBytesL, encVList, VList.length, decCount]⟩
  | cons v vrest =>
    simp only [wfVListT, Bool.and_eq_true, decide_eq_true_eq] at h
    obtain ⟨⟨hty, hwfv⟩, hwfrest⟩ := h
    obtain ⟨hErr, hDec⟩ := dec_enc v hwfv (encBytesL vrest ++ rest)
    rw [hty] at hDec
    obtain ⟨hB, hE⟩ := encVList_cons_ok vrest hErr
    obtain ⟨hErrL, hDecL⟩ := dec_enc_list t vrest hwfrest rest
    refine ⟨hE ▸ hErrL, ?_⟩
    rw [hB, VList.length, List.append_assoc, decCount, hDec]
    simp only [bind, Except.bind]
    rw [hDecL]

theorem dec_enc_fields (fs : VFields) (h : wfVFields fs = true) (rest : List Nat) :
    encErrF fs = none ∧
    decTFields (typeOfFields fs) (encBytesF fs ++ rest) = .ok (fs, rest) := by
  cases fs with
  | nil => exact ⟨rfl, by simp [encBytesF, encVFields, typeOfFields, decTFields]⟩
  | cons sk v frest =>
    simp only [wfVFields, Bool.and_eq_true] at h
    obtain ⟨hv, hwfrest⟩ := h
    obtain ⟨hErrF, hDecF⟩ := dec_enc_fields frest hwfrest rest
    cases sk with
    | true =>
      have hz : v = zeroValue (typeOf v) := by simpa using hv
      obtain ⟨hB, hE⟩ := encVFields_cons_skip v frest
      refine ⟨hE ▸ hErrF, ?_⟩
      rw [hB]
      simp only [typeOfFields]
      rw [decTFields]
      simp only [if_true]
      rw [hDecF]
      simp only [bind, Except.bind]
      rw [← hz]
    | false =>
      have hwfv : wfGo v = true := by simpa using hv
      obtain ⟨hErr, hDec⟩ := dec_enc v hwfv (encBytesF frest ++ rest)
      obtain ⟨hB, hE⟩ := encVFields_cons_ok frest hErr
      refine ⟨hE ▸ hErrF, ?_⟩
      rw [hB]
      simp only [typeOfFields]
      rw [List.append_assoc, decTFields]
      simp only [Bool.false_eq_true, if_false]
      rw [hDec]
      simp only [bind, Except.bind]
      rw [hDecF]

theorem dec_enc_pairs (kt vt : GoType) (ps : VPairs) (h : wfVPairsT kt vt ps = true)
    (acc : VPairs) (hacc : pairsFresh ps acc = true) (rest : List Nat) :
    encErrP ps = none ∧
    decPairsCount (decGo kt) (decGo vt) ps.length acc (encBytesP ps ++ rest) =
      .ok (acc.append ps, rest) := by
  cases ps with
  | nil =>
    exact ⟨rfl, by simp [encBytesP, encVPairs, VPairs.length, decPairsCount,
      VPairs.append_nil]⟩
  | cons k v prest =>
    simp only [wfVPairsT, Bool.and_eq_true, decide_eq_true_eq,
      Bool.not_eq_true'] at h
    obtain ⟨⟨⟨⟨⟨hkt, hwfk⟩, hvt⟩, hwfv⟩, hkmem⟩, hwfrest⟩ := h
    simp only [pairsFresh, Bool.and_eq_true, Bool.not_eq_true'] at hacc
    obtain ⟨hkacc, hfrest⟩ := hacc
    obtain ⟨hErrk, hDeck⟩ :=
      dec_enc k hwfk (encBytes v ++ (encBytesP prest ++ rest))
    rw [hkt] at hDeck
    obtain ⟨hErrv, hDecv⟩ := dec_enc v hwfv (encBytesP prest ++ rest)
    rw [hvt] at hDecv
    obtain ⟨hB, hE⟩ := encVPairs_cons_ok prest hErrk hErrv
    obtain ⟨hErrP, hDecP⟩ := dec_enc_pairs kt vt prest hwfrest
      (acc.append (.cons k v .nil)) (pairsFresh_extend v hkmem hfrest) rest
    refine ⟨hE ▸ hErrP, ?_⟩
    rw [hB, VPairs.length, List.append_assoc, List.append_assoc, decPairsCount, hDeck]
    simp only [bind, Except.bind]
    rw [hDecv]
    simp only [bind, Except.bind]
    rw [mapSet_fresh v hkacc, hDecP, VPairs.append_assoc]
    rfl

end

/-! ## Supporting lemmas for the claim theorems -/

theorem readFull_of_le {w : Nat} {bs : List Nat} (h : w ≤ bs.length) :
    readFull w bs = .ok (bs.take w, bs.drop w) := by
  unfold readFull
  rw [if_neg (by omega)]

theorem marshal_of_wf (v : GoValue) (h : wfGo v = true) :
    Marshal v = .ok (encBytes v) := by
  have hE := (dec_enc v h []).1
  unfold Marshal
  rw [encGo_out v [], hE]
  simp

theorem unmarshal_of_wf (v : GoValue) (h : wfGo v = true) :
    Unmarshal true (typeOf v) (encBytes v) = .ok v := by
  have hD := (dec_enc v h []).2
  rw [List.append_nil] at hD
  unfold Unmarshal
  rw [if_pos rfl, hD]
  rfl

/-! ## The claims -/

/-- Claim C1, counterexample to the claim as stated.  A struct with a
skipped field (in Go: an unexported field, here holding `true`) is a
supported type (taxonomy rule 9); `Marshal` succeeds, `Unmarshal` into a
fresh target succeeds, but the skipped field comes back as its zero value
`false`, so the result is not structurally equal to the original. -/
theorem c1_skipped_field_loss :
    Marshal (.vstruct (.cons true (.vbool true) .nil)) = .ok [] ∧
    Unmarshal true (typeOf (.vstruct (.cons true (.vbool true) .nil))) [] =
      .ok (.vstruct (.cons true (.vbool false) .nil)) ∧
    (GoValue.vstruct (.cons true (.vbool true) .nil)) ≠
      .vstruct (.cons true (.vbool false) .nil) := by
  decide

/-- Claim C1 (amended): for every well-formed value of a supported type
(rules 1–9; skipped struct fields holding their zero values, which is all
a fresh decode target can ever hold there) whose encoding fits the
decoder's 4096-byte `bufio` buffer, `Marshal` succeeds and `Unmarshal` of
its bytes into a fresh addressable target of the same type succeeds and
returns a value structurally equal to the original.  The size bound is
where the decode model is exact: beyond it the single unchecked
`d.r.Read` of the string and custom-unmarshaler cases returns at most the
buffered bytes and the program zero-fills the rest of a long string or
blob, breaking the round trip in Go even though every byte is present in
the source (the over-4096 failure is the C5 bug at scale; within the
bound `writeVarint`'s 8-byte scratch buffer also suffices for every
length prefix of a well-formed value). -/
theorem c1_roundtrip (v : GoValue) (h : wfGo v = true)
    (_hfit : (encBytes v).length ≤ 4096) :
    Marshal v = .ok (encBytes v) ∧ Unmarshal true (typeOf v) (encBytes v) = .ok v :=
  ⟨marshal_of_wf v h, unmarshal_of_wf v h⟩

/-- Witness for C1 at a concrete struct holding a string, a native int, a
bool, a map and a slice of strings. -/
theorem c1_roundtrip_witness :
    (wfGo sampleValue = true ∧ (encBytes sampleValue).length ≤ 4096) ∧
    (Marshal sampleValue = .ok (encBytes sampleValue) ∧
      Unmarshal true (typeOf sampleValue) (encBytes sampleValue) = .ok sampleValue) :=
  ⟨⟨by decide, by decide⟩, c1_roundtrip sampleValue (by decide) (by decide)⟩

/-- Claim C2: the claim (and the repository's own test
`TestMarshalUnMarshalTypeAliases`) expects a named type over int64 to
encode exactly like int64; the code instead reports "unsupported type",
because the type switch matches exact base types only and the reflection
branch handles only the Array/Slice/Struct/Map kinds.  Evaluated at the
test's own input `Foo(32)`. -/
theorem c2_named_scalar_unsupported :
    encGo (.vnamed (.vscalar 8 32)) [] = ([], some "unsupported type") ∧
    Marshal (.vnamed (.vscalar 8 32)) = .error "unsupported type" ∧
    Marshal (.vscalar 8 32) = .ok [32, 0, 0, 0, 0, 0, 0, 0] := by
  decide

/-- Claim C3: on input `[0x01]` the varint prefix promises one payload
byte but the source is exhausted; `d.r.Read` returns `(0, io.EOF)`, yet
the assigned error is discarded by `return i.UnmarshalBinary(buf)`
(src/binary.go line 180), so Decode hands the zero-filled buffer `[0x00]`
to the target's UnmarshalBinary and reports whatever it returns — for the
blob-storing unmarshaler, success — instead of the error the claim (and
the spec) requires.  Likewise `[0x02, 0x07]` promises two bytes, supplies
one, and succeeds with a zero-padded blob. -/
theorem c3_unmarshaler_short_read_swallowed :
    Unmarshal true .tcustom [1] = .ok (.vmarshaler (.ok [0])) ∧
    Unmarshal true .tcustom [2, 7] = .ok (.vmarshaler (.ok [7, 0])) := by
  decide

/-- Claim C4: the five boundary values below `2^56` pass through the
repository's own `writeVarint` and back through `ReadUvarint` with the
claimed lengths 1, 1, 2, 2 and 3.  The claimed 10-byte case fails on the
encode side: the LEB128 encoding of `2^64-1` does have length 10 and
`ReadUvarint` does decode it back, but `writeVarint` passes `PutUvarint`
the 8-byte `e.buf` allocated by `NewEncoder` (src/binary.go line 36), so
for every value `≥ 2^56` it panics with a slice-bounds error (`none`)
instead of emitting the encoding — the repository's codec can never
produce the 10-byte varint the claim (and the spec's 1–10-byte wire
grammar, and the mirroring decoder) calls for. -/
theorem c4_varint_boundaries :
    (writeVarint 0 = some (uvarint 0) ∧ (uvarint 0).length = 1 ∧
      readUvarint (uvarint 0) = .ok (0, [])) ∧
    (writeVarint 127 = some (uvarint 127) ∧ (uvarint 127).length = 1 ∧
      readUvarint (uvarint 127) = .ok (127, [])) ∧
    (writeVarint 128 = some (uvarint 128) ∧ (uvarint 128).length = 2 ∧
      readUvarint (uvarint 128) = .ok (128, [])) ∧
    (writeVarint 16383 = some (uvarint 16383) ∧ (uvarint 16383).length = 2 ∧
      readUvarint (uvarint 16383) = .ok (16383, [])) ∧
    (writeVarint 16384 = some (uvarint 16384) ∧ (uvarint 16384).length = 3 ∧
      readUvarint (uvarint 16384) = .ok (16384, [])) ∧
    ((uvarint (2 ^ 64 - 1)).length = 10 ∧
      readUvarint (uvarint (2 ^ 64 - 1)) = .ok (2 ^ 64 - 1, []) ∧
      writeVarint (2 ^ 64 - 1) = none) := by
  decide

/-- Claim C6: decoding into a fixed-length array target whose declared
length differs from the decoded element count fails with the structural
mismatch error, before any element is read — never truncating, never
padding. -/
theorem c6_array_count_mismatch (cnt n : Nat) (t : GoType) (s : List Nat)
    (hc : cnt < 2 ^ 64) (hne : cnt ≠ n) :
    decGo (.tarray n t) (uvarint cnt ++ s) =
      .error ("encoded size " ++ toString cnt ++ " != real size " ++ toString n) := by
  rw [decGo, readUvarint_uvarint hc s]
  simp only [bind, Except.bind]
  rw [if_pos hne]

/-- Witness for C6: count 3 into an array declared to hold 2 booleans. -/
theorem c6_array_count_mismatch_witness :
    (3 < 2 ^ 64 ∧ 3 ≠ 2) ∧
    decGo (.tarray 2 .tbool) (uvarint 3 ++ [1, 1, 1]) =
      .error ("encoded size " ++ toString 3 ++ " != real size " ++ toString 2) :=
  ⟨⟨by decide, by decide⟩, c6_array_count_mismatch 3 2 .tbool [1, 1, 1] (by decide) (by decide)⟩

/-- Claim C7: the struct `{A string; B string; C int16}` with values
`{"A", "B", 1}` (fields settable, i.e. the struct passed by pointer as in
`TestBinaryEncodeStruct`) encodes to exactly
`[0x1, 0x41, 0x1, 0x42, 0x1, 0x0]`: declaration order, each string
length-prefixed, the int16 as two little-endian bytes, no tags. -/
theorem c7_struct_field_order :
    Marshal (.vstruct (.cons false (.vstring [65]) (.cons false (.vstring [66])
      (.cons false (.vscalar 2 1) .nil)))) = .ok [1, 65, 1, 66, 1, 0] := by
  decide

/-- Claim C8: a custom marshaler is invoked first; on failure the error is
propagated with the sink untouched — in particular no varint prefix is
written.  The prefix goes out only after MarshalBinary has succeeded. -/
theorem c8_marshaler_error_writes_nothing (e : String) (out buf : List Nat) :
    encGo (.vmarshaler (.error e)) out = (out, some e) ∧
    encGo (.vmarshaler (.ok buf)) out = (out ++ uvarint buf.length ++ buf, none) :=
  ⟨rfl, rfl⟩

/-- Claim C9: for every scalar target type, `Unmarshal` with a
non-addressable target always fails with the pointer error, and with an
addressable target it succeeds on any input holding at least the scalar's
width in bytes. -/
theorem c9_scalar_target_addressability (t : GoType) (w : Nat)
    (hw : scalarWidth t = some w) :
    (∀ bs : List Nat, Unmarshal false t bs = .error "can only Decode to pointer type") ∧
    (∀ bs : List Nat, w ≤ bs.length → ∃ v : GoValue, Unmarshal true t bs = .ok v) := by
  refine ⟨fun bs => rfl, fun bs hlen => ?_⟩
  cases t with
  | tbool =>
    simp only [scalarWidth, Option.some.injEq] at hw
    subst hw
    unfold Unmarshal
    rw [if_pos rfl, decGo, readFull_of_le hlen]
    exact ⟨_, rfl⟩
  | tint =>
    simp only [scalarWidth, Option.some.injEq] at hw
    subst hw
    unfold Unmarshal
    rw [if_pos rfl, decGo, readFull_of_le hlen]
    exact ⟨_, rfl⟩
  | tuint =>
    simp only [scalarWidth, Option.some.injEq] at hw
    subst hw
    unfold Unmarshal
    rw [if_pos rfl, decGo, readFull_of_le hlen]
    exact ⟨_, rfl⟩
  | tscalar w₀ =>
    simp only [scalarWidth, Option.some.injEq] at hw
    subst hw
    unfold Unmarshal
    rw [if_pos rfl, decGo, readFull_of_le hlen]
    exact ⟨_, rfl⟩
  | tstring => simp [scalarWidth] at hw
  | tbytes => simp [scalarWidth] at hw
  | tcustom => simp [scalarWidth] at hw
  | tslice t => simp [scalarWidth] at hw
  | tarray n t => simp [scalarWidth] at hw
  | tstruct fs => simp [scalarWidth] at hw
  | tmap kt vt => simp [scalarWidth] at hw

/-- Witness for C9 at the test's own type and input
(`TestBinaryDecodeToValueErrors`: uint32 target, bytes `[1,0,0,0]`). -/
theorem c9_scalar_target_addressability_witness :
    scalarWidth (GoType.tscalar 4) = some 4 ∧
    Unmarshal false (GoType.tscalar 4) [1, 0, 0, 0] =
      .error "can only Decode to pointer type" ∧
    ∃ v : GoValue, Unmarshal true (GoType.tscalar 4) [1, 0, 0, 0] = .ok v :=
  ⟨by decide,
    (c9_scalar_target_addressability (GoType.tscalar 4) 4 (by decide)).1 [1, 0, 0, 0],
    (c9_scalar_target_addressability (GoType.tscalar 4) 4 (by decide)).2 [1, 0, 0, 0]
      (by decide)⟩

/-- Claim C10: decoding a boolean target reads one byte and yields
`byte != 0`: 0x00 is false, every nonzero byte (not only 0x01) is true,
and no byte value causes an error. -/
theorem c10_bool_nonzero_true (b : Nat) (s : List Nat) :
    decGo .tbool (b :: s) = .ok (.vbool (b != 0), s) := by
  rw [decGo, readFull_of_le (by simp)]
  simp [bind, Except.bind, fromLE]

end BinaryGo
